import Mathlib

/-!
# Verification of the envelope-buffer core

Shallow embedding of `relay-server/src/services/buffer/envelope_buffer/mod.rs`
(the `EnvelopeBuffer` scheduler, its `Priority` total order, and the
surrounding operations), together with proofs of the specified properties.

Timestamps (`DateTime<Utc>`) and monotonic instants (`Instant`) are embedded
as integers; the only operations the source performs on them are comparison
and `now + duration`.
-/

/-- A project key; in the source this is a 32-hex-character opaque identifier
(`relay_base_schema::project::ProjectKey`).  Only equality and ordering are
used by the buffer, so we embed it as a natural number. -/
abbrev ProjectKey := Nat

/-- Modelled from the spec: `ProjectKeyPair` lives in
`services/buffer/common.rs`, which is not part of the sources; per the spec
it is the ordered pair `(own_key, sampling_key)` where `sampling_key`
defaults to `own_key` if absent, and equality uses both fields. -/
structure ProjectKeyPair where
  own_key : ProjectKey
  sampling_key : ProjectKey
deriving DecidableEq, Repr

/-- Modelled from the spec: `iter()` on a `ProjectKeyPair` yields one or two
distinct keys (a self-pair contributes a single key). -/
def ProjectKeyPair.iter (p : ProjectKeyPair) : List ProjectKey :=
  if p.own_key = p.sampling_key then [p.own_key] else [p.own_key, p.sampling_key]

/-- An envelope, opaque to the buffer: an immutable `received_at` timestamp,
an own project key, and an optional sampling project key. -/
structure Envelope where
  received_at : Int
  own_project_key : ProjectKey
  sampling_project_key : Option ProjectKey
deriving DecidableEq, Repr

/-- Modelled from the spec: `ProjectKeyPair::from_envelope` computes
`(own_key, sampling_key ?? own_key)`. -/
def ProjectKeyPair.from_envelope (e : Envelope) : ProjectKeyPair :=
  { own_key := e.own_project_key,
    sampling_key := e.sampling_project_key.getD e.own_project_key }

/-- Readiness flags of a stack's two projects (struct `Readiness`). -/
structure Readiness where
  own_project_ready : Bool
  sampling_project_ready : Bool
deriving DecidableEq, Repr

/-- `Readiness::new`: both flags optimistically start as `true`. -/
def Readiness.new : Readiness :=
  { own_project_ready := true, sampling_project_ready := true }

/-- `Readiness::ready`: conjunction of both flags. -/
def Readiness.ready (r : Readiness) : Bool :=
  r.own_project_ready && r.sampling_project_ready

/-- Priority of a queue entry (struct `Priority`). -/
structure Priority where
  readiness : Readiness
  received_at : Int
  next_project_fetch : Int
deriving DecidableEq, Repr

/-- `Priority::new(received_at)`: fresh readiness, `next_project_fetch`
initialized to the current instant (passed explicitly as `now`). -/
def Priority.new (received_at now : Int) : Priority :=
  { readiness := Readiness.new, received_at := received_at,
    next_project_fetch := now }

/-- Integer comparison, the embedding of `Ord::cmp` on timestamps/instants. -/
def icmp (x y : Int) : Ordering :=
  if x < y then Ordering.lt else if x = y then Ordering.eq else Ordering.gt

/-- `impl Ord for Priority`: the case analysis on readiness of both sides;
`.swap` embeds Rust's `Ordering::reverse` and `.then` embeds
`Ordering::then`. -/
def Priority.cmp (a b : Priority) : Ordering :=
  match a.readiness.ready, b.readiness.ready with
  | true, true => icmp a.received_at b.received_at
  | true, false => Ordering.gt
  | false, true => Ordering.lt
  | false, false =>
      ((icmp a.next_project_fetch b.next_project_fetch).swap).then
        ((icmp a.received_at b.received_at).swap)

/-- A `QueueItem` together with its `Priority`, as stored in the priority
queue.  `key` is the `ProjectKeyPair` identity, `value` the envelope stack
(the in-memory stack variant is modelled from the spec as a LIFO list whose
head is the top). -/
structure QueueEntry where
  key : ProjectKeyPair
  value : List Envelope
  prio : Priority
deriving DecidableEq, Repr

/-- `StackCreationType`: distinguishes stacks created for new envelopes from
stacks re-materialized at startup. -/
inductive StackCreationType where
  | new
  | atStartup
deriving DecidableEq, Repr

/-- Result of `EnvelopeBuffer::peek` (enum `Peek`). -/
inductive Peek where
  | empty
  | ready (project_key_pair : ProjectKeyPair) (last_received_at : Int)
  | notReady (project_key_pair : ProjectKeyPair) (next_project_fetch : Int)
      (last_received_at : Int)
deriving DecidableEq, Repr

/-- The envelope buffer state (struct `EnvelopeBuffer`).  The priority queue
is embedded as a list of entries (the `priority_queue` crate exposes a
max-priority heap with key lookup; the top is an entry of maximal priority);
`stacks_by_project` as an association list from key to set of pairs. -/
structure EnvelopeBuffer where
  priority_queue : List QueueEntry
  stacks_by_project : List (ProjectKey × List ProjectKeyPair)
  total_count : Int
  tracked_count : Nat
  total_count_initialized : Bool
deriving DecidableEq, Repr

/-- `EnvelopeBuffer::new`: an empty buffer. -/
def EnvelopeBuffer.new : EnvelopeBuffer :=
  { priority_queue := [], stacks_by_project := [], total_count := 0,
    tracked_count := 0, total_count_initialized := false }

/-- `change_priority_by`-style update: apply `f` to every entry whose key is
`pair` (keys are unique in any reachable queue). -/
def updateEntries (pair : ProjectKeyPair) (f : QueueEntry → QueueEntry)
    (q : List QueueEntry) : List QueueEntry :=
  q.map (fun en => if en.key = pair then f en else en)

/-- Of two entries, the one with the strictly greater priority (keeping the
first on ties); used to locate the queue's top. -/
def betterEntry (a b : QueueEntry) : QueueEntry :=
  if Priority.cmp b.prio a.prio = Ordering.gt then b else a

/-- The top of the priority queue: an entry of maximal priority (the
`priority_queue` crate's `peek`; ties resolved to the leftmost maximum). -/
def queueTop : List QueueEntry → Option QueueEntry
  | [] => none
  | en :: rest => some (rest.foldl betterEntry en)

/-- Membership in the reverse index: `pair ∈ stacks_by_project[k]`. -/
def sbpContainsP (idx : List (ProjectKey × List ProjectKeyPair))
    (k : ProjectKey) (p : ProjectKeyPair) : Prop :=
  ∃ e ∈ idx, e.1 = k ∧ p ∈ e.2

instance (idx : List (ProjectKey × List ProjectKeyPair)) (k : ProjectKey)
    (p : ProjectKeyPair) : Decidable (sbpContainsP idx k p) :=
  List.decidableBEx _ idx

/-- `BTreeSet::insert` on the set of pairs. -/
def setInsert (s : List ProjectKeyPair) (p : ProjectKeyPair) :
    List ProjectKeyPair :=
  if p ∈ s then s else s ++ [p]

/-- `stacks_by_project.entry(k).or_default().insert(p)`. -/
def sbpInsertPair (idx : List (ProjectKey × List ProjectKeyPair))
    (k : ProjectKey) (p : ProjectKeyPair) :
    List (ProjectKey × List ProjectKeyPair) :=
  if idx.any (fun e => decide (e.1 = k)) then
    idx.map (fun e => if e.1 = k then (e.1, setInsert e.2 p) else e)
  else
    idx ++ [(k, [p])]

/-- `stacks_by_project.get_mut(k).remove(p)`. -/
def sbpRemovePair (idx : List (ProjectKey × List ProjectKeyPair))
    (k : ProjectKey) (p : ProjectKeyPair) :
    List (ProjectKey × List ProjectKeyPair) :=
  idx.map (fun e => if e.1 = k then (e.1, e.2.filter (fun x => decide (x ≠ p))) else e)

/-- Total number of buffered envelopes across all stacks. -/
def stackSum (q : List QueueEntry) : Nat :=
  (q.map (fun en => en.value.length)).sum

/-- `EnvelopeBuffer::push_stack`: create a stack (optionally pushing one
envelope), insert the entry with a fresh optimistic priority, and record the
pair in the reverse index for every key it iterates. -/
def EnvelopeBuffer.push_stack (b : EnvelopeBuffer) (_ct : StackCreationType)
    (pair : ProjectKeyPair) (envOpt : Option Envelope) (now : Int) :
    EnvelopeBuffer :=
  let received_at := match envOpt with
    | some e => e.received_at
    | none => now
  let stack : List Envelope := match envOpt with
    | some e => [e]
    | none => []
  { b with
    priority_queue :=
      (b.priority_queue ++ [{ key := pair, value := stack,
                              prio := Priority.new received_at now }]),
    stacks_by_project :=
      (pair.iter.foldl (fun idx k => sbpInsertPair idx k pair)
        b.stacks_by_project) }

/-- `EnvelopeBuffer::pop_stack`: remove the pair from the reverse index for
every key it iterates, and remove its entry from the priority queue. -/
def EnvelopeBuffer.pop_stack (b : EnvelopeBuffer) (pair : ProjectKeyPair) :
    EnvelopeBuffer :=
  { b with
    stacks_by_project :=
      (pair.iter.foldl (fun idx k => sbpRemovePair idx k pair)
        b.stacks_by_project),
    priority_queue :=
      (b.priority_queue.filter (fun en => decide (en.key ≠ pair))) }

/-- `EnvelopeBuffer::push`: push onto the existing stack or create a new one,
then re-prioritize with the envelope's `received_at` and bump both counts.
The in-memory stack push is infallible, so the embedding is total. -/
def EnvelopeBuffer.push (b : EnvelopeBuffer) (now : Int) (e : Envelope) :
    EnvelopeBuffer :=
  let received_at := e.received_at
  let pair := ProjectKeyPair.from_envelope e
  let b1 :=
    if (b.priority_queue.find? (fun en => decide (en.key = pair))).isSome then
      { b with priority_queue :=
          (updateEntries pair (fun en => { en with value := e :: en.value })
            b.priority_queue) }
    else
      b.push_stack StackCreationType.new pair (some e) now
  let b2 :=
    { b1 with priority_queue :=
        (updateEntries pair
          (fun en => { en with prio := { en.prio with received_at := received_at } })
          b1.priority_queue) }
  { b2 with total_count := b2.total_count + 1,
            tracked_count := b2.tracked_count + 1 }

/-- `EnvelopeBuffer::peek`: inspect the top entry without removing it.  The
in-memory stack's peek is non-destructive, so the state is returned
unchanged (the `&mut self` receiver is threaded through explicitly). -/
def EnvelopeBuffer.peek (b : EnvelopeBuffer) : Peek × EnvelopeBuffer :=
  match queueTop b.priority_queue with
  | none => (Peek.empty, b)
  | some en =>
      match en.value.head?, en.prio.readiness.ready with
      | none, _ => (Peek.empty, b)
      | some e, true => (Peek.ready en.key e.received_at, b)
      | some e, false =>
          (Peek.notReady en.key en.prio.next_project_fetch e.received_at, b)

/-- `EnvelopeBuffer::pop`: take the top entry's top envelope.  `none` embeds
the `expect("found an empty stack")` panic (the top stack being empty);
`some (none, b)` is the empty-queue case; `some (some e, b')` a successful
pop, with the entry removed when its stack became empty and re-prioritized
otherwise, and both counts decremented (`tracked_count` saturating). -/
def EnvelopeBuffer.pop (b : EnvelopeBuffer) :
    Option (Option Envelope × EnvelopeBuffer) :=
  match queueTop b.priority_queue with
  | none => some (none, b)
  | some en =>
      match en.value with
      | [] => none
      | e :: rest =>
          let b1 :=
            match rest with
            | [] => b.pop_stack en.key
            | e2 :: _ =>
                let upd : QueueEntry → QueueEntry := fun q =>
                  let p2 := { q.prio with received_at := e2.received_at }
                  { q with value := rest, prio := p2 }
                { b with priority_queue :=
                    (updateEntries en.key upd b.priority_queue) }
          some (some e, { b1 with total_count := b1.total_count - 1,
                                  tracked_count := b1.tracked_count - 1 })

/-- The closure body of `mark_ready`: for each sub-slot (own, sampling) whose
key equals `project`, set its readiness flag to `is_ready`; report whether
any flag actually changed. -/
def markReadyPrio (pair : ProjectKeyPair) (project : ProjectKey)
    (is_ready : Bool) (p : Priority) : Priority × Bool :=
  let o := p.readiness.own_project_ready
  let s := p.readiness.sampling_project_ready
  let o2 := if pair.own_key = project then is_ready else o
  let s2 := if pair.sampling_key = project then is_ready else s
  ({ p with readiness := { own_project_ready := o2, sampling_project_ready := s2 } },
   (decide (pair.own_key = project) && (o != is_ready)) ||
     (decide (pair.sampling_key = project) && (s != is_ready)))

/-- `change_priority_by` returning whether the closure reported a change
(the closure only runs when the key is found in the queue). -/
def changePriorityCollect (pair : ProjectKeyPair)
    (f : Priority → Priority × Bool) (q : List QueueEntry) :
    List QueueEntry × Bool :=
  (q.map (fun en => if en.key = pair then { en with prio := (f en.prio).1 } else en),
   q.any (fun en => decide (en.key = pair) && (f en.prio).2))

/-- One iteration of the `mark_ready` loop over the indexed pairs: apply the
readiness closure to the pair's queue entry (when present) and accumulate
the changed flag. -/
def markReadyStep (project : ProjectKey) (is_ready : Bool)
    (acc : List QueueEntry × Bool) (pair : ProjectKeyPair) :
    List QueueEntry × Bool :=
  ((changePriorityCollect pair (markReadyPrio pair project is_ready) acc.1).1,
   acc.2 || (changePriorityCollect pair (markReadyPrio pair project is_ready) acc.1).2)

/-- `EnvelopeBuffer::mark_ready`: for every pair indexed under `project`,
update the matching readiness slots; returns whether any priority changed. -/
def EnvelopeBuffer.mark_ready (b : EnvelopeBuffer) (project : ProjectKey)
    (is_ready : Bool) : Bool × EnvelopeBuffer :=
  match b.stacks_by_project.find? (fun e => decide (e.1 = project)) with
  | none => (false, b)
  | some entry =>
      ((entry.2.foldl (markReadyStep project is_ready)
          (b.priority_queue, false)).2,
       { b with priority_queue :=
          (entry.2.foldl (markReadyStep project is_ready)
            (b.priority_queue, false)).1 })

/-- `EnvelopeBuffer::mark_seen`: set the entry's `next_project_fetch` to
`now + next_fetch`. -/
def EnvelopeBuffer.mark_seen (b : EnvelopeBuffer) (pair : ProjectKeyPair)
    (next_fetch now : Int) : EnvelopeBuffer :=
  { b with priority_queue :=
      (updateEntries pair
        (fun en => { en with prio := { en.prio with next_project_fetch := now + next_fetch } })
        b.priority_queue) }

/-- `EnvelopeBuffer::flush`: `mem::take` empties the priority queue and hands
the drained stacks to the provider; no other field is touched. -/
def EnvelopeBuffer.flush (b : EnvelopeBuffer) : EnvelopeBuffer :=
  { b with priority_queue := [] }

/-- `EnvelopeBuffer::load_stacks`: push an empty stack for every surviving
pair reported by the provider. -/
def EnvelopeBuffer.load_stacks (b : EnvelopeBuffer)
    (pairs : List ProjectKeyPair) (now : Int) : EnvelopeBuffer :=
  pairs.foldl (fun bb pair => bb.push_stack StackCreationType.atStartup pair none now) b

/-- `EnvelopeBuffer::initialize` + `load_store_total_count`: load surviving
stacks, then attempt the store's total count under the 1-second timeout
(`storeCount = some n` is a successful load, `none` a timeout/error, in
which case `total_count` is left as is and the flag records the failure). -/
def initializeBuffer (b : EnvelopeBuffer) (pairs : List ProjectKeyPair)
    (storeCount : Option Nat) (now : Int) : EnvelopeBuffer :=
  let b1 := b.load_stacks pairs now
  match storeCount with
  | some n => { b1 with total_count := (n : Int), total_count_initialized := true }
  | none => { b1 with total_count_initialized := false }

/-- `PolymorphicEnvelopeBuffer::item_count`: reports `tracked_count`. -/
def EnvelopeBuffer.item_count (b : EnvelopeBuffer) : Nat :=
  b.tracked_count

/-- Invariant I1: every queue entry's pair is indexed under each key it
iterates, and every indexed pair has a queue entry. -/
def invariantI1 (b : EnvelopeBuffer) : Prop :=
  (∀ en ∈ b.priority_queue, ∀ k ∈ en.key.iter,
      sbpContainsP b.stacks_by_project k en.key) ∧
  (∀ e ∈ b.stacks_by_project, ∀ p ∈ e.2,
      p ∈ b.priority_queue.map QueueEntry.key)

/-- The reverse index only stores a pair under keys the pair iterates. -/
def indexSound (idx : List (ProjectKey × List ProjectKeyPair)) : Prop :=
  ∀ e ∈ idx, ∀ p ∈ e.2, e.1 ∈ p.iter

/-- Structural well-formedness maintained by every reachable buffer: unique
queue keys (invariant I3), unique index keys (a `HashMap`), and a sound
reverse index. -/
def bufferWF (b : EnvelopeBuffer) : Prop :=
  (b.priority_queue.map QueueEntry.key).Nodup ∧
  (b.stacks_by_project.map Prod.fst).Nodup ∧
  indexSound b.stacks_by_project

/-- A push or pop operation, for sequences of buffer operations. -/
inductive BufOp where
  | pushOp (now : Int) (e : Envelope)
  | popOp
deriving DecidableEq, Repr

/-- Run a sequence of operations, counting pushes and successful pops;
`none` when a pop hits the empty-stack panic. -/
def runOps (b : EnvelopeBuffer) : List BufOp → Option (EnvelopeBuffer × Nat × Nat)
  | [] => some (b, 0, 0)
  | BufOp.pushOp now e :: ops =>
      (runOps (b.push now e) ops).map (fun r => (r.1, r.2.1 + 1, r.2.2))
  | BufOp.popOp :: ops =>
      match b.pop with
      | none => none
      | some (none, b') => runOps b' ops
      | some (some _, b') =>
          (runOps b' ops).map (fun r => (r.1, r.2.1, r.2.2 + 1))

instance (b : EnvelopeBuffer) : Decidable (invariantI1 b) := by
  unfold invariantI1; infer_instance

instance (idx : List (ProjectKey × List ProjectKeyPair)) :
    Decidable (indexSound idx) := by
  unfold indexSound; infer_instance

instance (b : EnvelopeBuffer) : Decidable (bufferWF b) := by
  unfold bufferWF; infer_instance

/-! ## The Priority comparison -/

theorem ordering_swap_eq_gt (o : Ordering) :
    o.swap = Ordering.gt ↔ o = Ordering.lt := by
  cases o <;> simp [Ordering.swap]

theorem ordering_swap_eq_eq (o : Ordering) :
    o.swap = Ordering.eq ↔ o = Ordering.eq := by
  cases o <;> simp [Ordering.swap]

theorem ordering_swap_eq_lt (o : Ordering) :
    o.swap = Ordering.lt ↔ o = Ordering.gt := by
  cases o <;> simp [Ordering.swap]

theorem ordering_then_eq_gt (o1 o2 : Ordering) :
    o1.then o2 = Ordering.gt ↔
      o1 = Ordering.gt ∨ (o1 = Ordering.eq ∧ o2 = Ordering.gt) := by
  cases o1 <;> simp [Ordering.then]

theorem ordering_then_eq_eq (o1 o2 : Ordering) :
    o1.then o2 = Ordering.eq ↔ o1 = Ordering.eq ∧ o2 = Ordering.eq := by
  cases o1 <;> simp [Ordering.then]

theorem ordering_swap_then (o1 o2 : Ordering) :
    (o1.then o2).swap = (o1.swap).then (o2.swap) := by
  cases o1 <;> cases o2 <;> simp [Ordering.then, Ordering.swap]

theorem icmp_eq_lt {x y : Int} : icmp x y = Ordering.lt ↔ x < y := by
  unfold icmp; split_ifs <;> simp_all <;> omega

theorem icmp_eq_eq {x y : Int} : icmp x y = Ordering.eq ↔ x = y := by
  unfold icmp; split_ifs <;> simp_all <;> omega

theorem icmp_eq_gt {x y : Int} : icmp x y = Ordering.gt ↔ y < x := by
  unfold icmp; split_ifs <;> simp_all <;> omega

theorem ordering_swap_swap (o : Ordering) : o.swap.swap = o := by
  cases o <;> rfl

theorem icmp_swap (x y : Int) : icmp y x = (icmp x y).swap := by
  unfold icmp; split_ifs <;> first | rfl | omega

theorem priority_cmp_gt_iff (a b : Priority) :
    Priority.cmp a b = Ordering.gt ↔
      (a.readiness.ready = true ∧ b.readiness.ready = true ∧
        b.received_at < a.received_at) ∨
      (a.readiness.ready = true ∧ b.readiness.ready = false) ∨
      (a.readiness.ready = false ∧ b.readiness.ready = false ∧
        (a.next_project_fetch < b.next_project_fetch ∨
          (a.next_project_fetch = b.next_project_fetch ∧
            a.received_at < b.received_at))) := by
  cases ha : a.readiness.ready <;> cases hb : b.readiness.ready <;>
    simp [Priority.cmp, ha, hb, ordering_then_eq_gt, ordering_swap_eq_gt,
      ordering_swap_eq_eq, icmp_eq_lt, icmp_eq_eq, icmp_eq_gt]

theorem priority_cmp_eq_iff (a b : Priority) :
    Priority.cmp a b = Ordering.eq ↔
      (a.readiness.ready = true ∧ b.readiness.ready = true ∧
        a.received_at = b.received_at) ∨
      (a.readiness.ready = false ∧ b.readiness.ready = false ∧
        a.next_project_fetch = b.next_project_fetch ∧
        a.received_at = b.received_at) := by
  cases ha : a.readiness.ready <;> cases hb : b.readiness.ready <;>
    simp [Priority.cmp, ha, hb, ordering_then_eq_eq, ordering_swap_eq_eq,
      icmp_eq_eq]

theorem priority_cmp_swap (a b : Priority) :
    Priority.cmp b a = (Priority.cmp a b).swap := by
  cases ha : a.readiness.ready <;> cases hb : b.readiness.ready <;>
    simp only [Priority.cmp, ha, hb]
  · rw [icmp_swap a.next_project_fetch b.next_project_fetch,
      icmp_swap a.received_at b.received_at, ordering_swap_then,
      ordering_swap_swap, ordering_swap_swap]
  · rfl
  · rfl
  · exact icmp_swap _ _

theorem priority_cmp_lt_iff_swap (a b : Priority) :
    Priority.cmp a b = Ordering.lt ↔ Priority.cmp b a = Ordering.gt := by
  rw [priority_cmp_swap a b, ordering_swap_eq_gt]

/-- C2: `Priority::cmp` implements exactly the specified case analysis: if
both priorities are ready (both readiness flags true on each side) the one
with the larger `received_at` is greater; a ready priority is strictly
greater than a not-ready one; if both are not ready they compare by
`next_project_fetch` reversed (smaller is greater) with ties broken by
`received_at` reversed (smaller is greater). -/
theorem priority_cmp_case_analysis (a b : Priority) :
    ((a.readiness.own_project_ready = true ∧
        a.readiness.sampling_project_ready = true) →
      (b.readiness.own_project_ready = true ∧
        b.readiness.sampling_project_ready = true) →
        ((Priority.cmp a b = Ordering.gt ↔ b.received_at < a.received_at) ∧
         (Priority.cmp a b = Ordering.eq ↔ a.received_at = b.received_at) ∧
         (Priority.cmp a b = Ordering.lt ↔ a.received_at < b.received_at))) ∧
    (a.readiness.ready = true → b.readiness.ready = false →
      Priority.cmp a b = Ordering.gt) ∧
    (a.readiness.ready = false → b.readiness.ready = true →
      Priority.cmp a b = Ordering.lt) ∧
    (a.readiness.ready = false → b.readiness.ready = false →
      ((Priority.cmp a b = Ordering.gt ↔
         (a.next_project_fetch < b.next_project_fetch ∨
           (a.next_project_fetch = b.next_project_fetch ∧
             a.received_at < b.received_at))) ∧
       (Priority.cmp a b = Ordering.eq ↔
         (a.next_project_fetch = b.next_project_fetch ∧
           a.received_at = b.received_at)))) := by
  refine ⟨?_, ?_, ?_, ?_⟩
  · intro ha hb
    have ha' : a.readiness.ready = true := by
      simp [Readiness.ready, ha.1, ha.2]
    have hb' : b.readiness.ready = true := by
      simp [Readiness.ready, hb.1, hb.2]
    refine ⟨?_, ?_, ?_⟩
    · simp [priority_cmp_gt_iff, ha', hb']
    · simp [priority_cmp_eq_iff, ha', hb']
    · rw [priority_cmp_lt_iff_swap]; simp [priority_cmp_gt_iff, ha', hb']
  · intro ha hb
    simp [priority_cmp_gt_iff, ha, hb]
  · intro ha hb
    rw [priority_cmp_lt_iff_swap]; simp [priority_cmp_gt_iff, ha, hb]
  · intro ha hb
    constructor
    · simp [priority_cmp_gt_iff, ha, hb]
    · simp [priority_cmp_eq_iff, ha, hb]

/-- Witness for C2 at concrete priorities: a fresh ready priority with the
larger timestamp is strictly greater, and a ready one beats a not-ready
one. -/
theorem priority_cmp_case_analysis_witness :
    Priority.cmp (Priority.new 5 0) (Priority.new 3 0) = Ordering.gt ∧
    Priority.cmp (Priority.new 5 0)
      { readiness := { own_project_ready := false, sampling_project_ready := true },
        received_at := 9, next_project_fetch := 0 } = Ordering.gt :=
  ⟨((priority_cmp_case_analysis (Priority.new 5 0) (Priority.new 3 0)).1
      ⟨rfl, rfl⟩ ⟨rfl, rfl⟩).1.mpr (by decide),
   (priority_cmp_case_analysis (Priority.new 5 0) _).2.1 (by decide) (by decide)⟩

/-- C6: the `Priority` ordering is a lawful total order: comparison is
antisymmetric as an operation (`cmp b a` is the swap of `cmp a b`), total,
transitive on the induced `≤`, antisymmetric up to the induced equality, and
priorities with identical fields compare equal. -/
theorem priority_cmp_total_order (a b c : Priority) :
    (Priority.cmp b a = (Priority.cmp a b).swap) ∧
    (Priority.cmp a b = Ordering.lt ∨ Priority.cmp a b = Ordering.eq ∨
      Priority.cmp a b = Ordering.gt) ∧
    (Priority.cmp a b ≠ Ordering.gt → Priority.cmp b c ≠ Ordering.gt →
      Priority.cmp a c ≠ Ordering.gt) ∧
    (Priority.cmp a b ≠ Ordering.gt → Priority.cmp b a ≠ Ordering.gt →
      Priority.cmp a b = Ordering.eq) ∧
    (a.readiness = b.readiness → a.received_at = b.received_at →
      a.next_project_fetch = b.next_project_fetch →
      Priority.cmp a b = Ordering.eq) := by
  refine ⟨priority_cmp_swap a b, ?_, ?_, ?_, ?_⟩
  · cases Priority.cmp a b <;> simp
  · intro hab hbc
    rw [ne_eq, priority_cmp_gt_iff] at hab hbc ⊢
    cases ha : a.readiness.ready <;> cases hb : b.readiness.ready <;>
      cases hc : c.readiness.ready <;> simp_all <;> omega
  · intro hab hba
    rw [ne_eq, priority_cmp_gt_iff] at hab hba
    rw [priority_cmp_eq_iff]
    cases ha : a.readiness.ready <;> cases hb : b.readiness.ready <;>
      simp_all <;> omega
  · intro h1 h2 h3
    have hr : b.readiness.ready = a.readiness.ready := by rw [h1]
    rw [priority_cmp_eq_iff]
    cases ha : a.readiness.ready <;> simp_all

/-! ## Queue infrastructure lemmas -/

theorem updateEntries_nil (pair : ProjectKeyPair) (f : QueueEntry → QueueEntry) :
    updateEntries pair f [] = [] := rfl

theorem updateEntries_cons (pair : ProjectKeyPair) (f : QueueEntry → QueueEntry)
    (en : QueueEntry) (t : List QueueEntry) :
    updateEntries pair f (en :: t) =
      (if en.key = pair then f en else en) :: updateEntries pair f t := rfl

theorem updateEntries_append (pair : ProjectKeyPair) (f : QueueEntry → QueueEntry)
    (l1 l2 : List QueueEntry) :
    updateEntries pair f (l1 ++ l2) =
      updateEntries pair f l1 ++ updateEntries pair f l2 := by
  simp [updateEntries]

theorem updateEntries_map_key (pair : ProjectKeyPair) (f : QueueEntry → QueueEntry)
    (hf : ∀ en, (f en).key = en.key) (q : List QueueEntry) :
    (updateEntries pair f q).map QueueEntry.key = q.map QueueEntry.key := by
  induction q with
  | nil => rfl
  | cons en t ih =>
      rw [updateEntries_cons, List.map_cons, List.map_cons, ih]
      congr 1
      split_ifs with h
      · exact hf en
      · rfl

theorem updateEntries_id {pair : ProjectKeyPair} {f : QueueEntry → QueueEntry}
    (q : List QueueEntry) (h : ∀ en ∈ q, en.key ≠ pair) :
    updateEntries pair f q = q := by
  induction q with
  | nil => rfl
  | cons en t ih =>
      rw [updateEntries_cons, if_neg (h en (List.mem_cons_self en t)),
        ih (fun x hx => h x (List.mem_cons_of_mem en hx))]

theorem updateEntries_split (pair : ProjectKeyPair) (f : QueueEntry → QueueEntry)
    (l1 l2 : List QueueEntry) (en : QueueEntry) (hen : en.key = pair)
    (h1 : ∀ x ∈ l1, x.key ≠ pair) (h2 : ∀ x ∈ l2, x.key ≠ pair) :
    updateEntries pair f (l1 ++ en :: l2) = l1 ++ f en :: l2 := by
  rw [updateEntries_append, updateEntries_cons, if_pos hen,
    updateEntries_id l1 h1, updateEntries_id l2 h2]

theorem mem_split_keys_nodup {q : List QueueEntry} {en : QueueEntry}
    (hmem : en ∈ q) (hnd : (q.map QueueEntry.key).Nodup) :
    ∃ l1 l2, q = l1 ++ en :: l2 ∧ (∀ x ∈ l1, x.key ≠ en.key) ∧
      (∀ x ∈ l2, x.key ≠ en.key) := by
  obtain ⟨l1, l2, rfl⟩ := List.append_of_mem hmem
  rw [List.map_append, List.map_cons, List.nodup_middle, List.nodup_cons,
    List.mem_append] at hnd
  push_neg at hnd
  refine ⟨l1, l2, rfl, ?_, ?_⟩
  · intro x hx h
    exact hnd.1.1 (h ▸ List.mem_map_of_mem QueueEntry.key hx)
  · intro x hx h
    exact hnd.1.2 (h ▸ List.mem_map_of_mem QueueEntry.key hx)

theorem foldl_betterEntry_mem (l : List QueueEntry) (a : QueueEntry) :
    l.foldl betterEntry a ∈ a :: l := by
  induction l generalizing a with
  | nil => exact List.mem_cons_self a []
  | cons x t ih =>
      rw [List.foldl_cons]
      rcases List.mem_cons.mp (ih (betterEntry a x)) with h | h
      · rw [h]
        unfold betterEntry
        split_ifs
        · exact List.mem_cons_of_mem a (List.mem_cons_self x t)
        · exact List.mem_cons_self a (x :: t)
      · exact List.mem_cons_of_mem a (List.mem_cons_of_mem x h)

theorem queueTop_mem {q : List QueueEntry} {en : QueueEntry}
    (h : queueTop q = some en) : en ∈ q := by
  cases q with
  | nil => simp [queueTop] at h
  | cons x t =>
      simp only [queueTop, Option.some.injEq] at h
      exact h ▸ foldl_betterEntry_mem t x

theorem queueTop_eq_none {q : List QueueEntry} :
    queueTop q = none ↔ q = [] := by
  cases q <;> simp [queueTop]

theorem stackSum_nil : stackSum [] = 0 := rfl

theorem stackSum_cons (en : QueueEntry) (t : List QueueEntry) :
    stackSum (en :: t) = en.value.length + stackSum t := by
  simp [stackSum]

theorem stackSum_append (l1 l2 : List QueueEntry) :
    stackSum (l1 ++ l2) = stackSum l1 + stackSum l2 := by
  simp [stackSum]

/-! ## Reverse-index lemmas -/

theorem sbpContainsP_cons {e : ProjectKey × List ProjectKeyPair}
    {idx : List (ProjectKey × List ProjectKeyPair)} {k : ProjectKey}
    {p : ProjectKeyPair} :
    sbpContainsP (e :: idx) k p ↔ (e.1 = k ∧ p ∈ e.2) ∨ sbpContainsP idx k p := by
  unfold sbpContainsP
  constructor
  · rintro ⟨x, hx, hk, hp⟩
    rcases List.mem_cons.mp hx with h | h
    · exact Or.inl ⟨h ▸ hk, h ▸ hp⟩
    · exact Or.inr ⟨x, h, hk, hp⟩
  · rintro (⟨hk, hp⟩ | ⟨x, hx, hk, hp⟩)
    · exact ⟨e, List.mem_cons_self e idx, hk, hp⟩
    · exact ⟨x, List.mem_cons_of_mem e hx, hk, hp⟩

theorem sbpContainsP_append {l1 l2 : List (ProjectKey × List ProjectKeyPair)}
    {k : ProjectKey} {p : ProjectKeyPair} :
    sbpContainsP (l1 ++ l2) k p ↔ sbpContainsP l1 k p ∨ sbpContainsP l2 k p := by
  unfold sbpContainsP
  constructor
  · rintro ⟨x, hx, hk, hp⟩
    rcases List.mem_append.mp hx with h | h
    · exact Or.inl ⟨x, h, hk, hp⟩
    · exact Or.inr ⟨x, h, hk, hp⟩
  · rintro (⟨x, hx, hk, hp⟩ | ⟨x, hx, hk, hp⟩)
    · exact ⟨x, List.mem_append_left l2 hx, hk, hp⟩
    · exact ⟨x, List.mem_append_right l1 hx, hk, hp⟩

theorem mem_setInsert {s : List ProjectKeyPair} {p p2 : ProjectKeyPair} :
    p2 ∈ setInsert s p ↔ p2 ∈ s ∨ p2 = p := by
  unfold setInsert
  split_ifs with h
  · constructor
    · exact Or.inl
    · rintro (h2 | rfl)
      · exact h2
      · exact h
  · simp [List.mem_append]

theorem sbpContainsP_remove {idx : List (ProjectKey × List ProjectKeyPair)}
    {k0 k : ProjectKey} {p0 p : ProjectKeyPair} :
    sbpContainsP (sbpRemovePair idx k0 p0) k p ↔
      sbpContainsP idx k p ∧ (k = k0 → p ≠ p0) := by
  unfold sbpRemovePair sbpContainsP
  constructor
  · rintro ⟨e', he', hk, hp⟩
    obtain ⟨e, he, rfl⟩ := List.mem_map.mp he'
    by_cases h0 : e.1 = k0
    · rw [if_pos h0] at hk hp
      simp only at hk
      simp only [List.mem_filter, decide_eq_true_eq, ne_eq] at hp
      exact ⟨⟨e, he, hk, hp.1⟩, fun _ => hp.2⟩
    · rw [if_neg h0] at hk hp
      refine ⟨⟨e, he, hk, hp⟩, ?_⟩
      intro hkk _
      exact h0 (hk.trans hkk)
  · rintro ⟨⟨e, he, hk, hp⟩, himp⟩
    refine ⟨_, List.mem_map_of_mem _ he, ?_, ?_⟩
    · split_ifs <;> simpa using hk
    · split_ifs with h0
      · simp only [List.mem_filter, decide_eq_true_eq, ne_eq]
        exact ⟨hp, himp (hk.symm.trans h0)⟩
      · exact hp

theorem sbpContainsP_insert {idx : List (ProjectKey × List ProjectKeyPair)}
    {k0 k : ProjectKey} {p0 p : ProjectKeyPair} :
    sbpContainsP (sbpInsertPair idx k0 p0) k p ↔
      sbpContainsP idx k p ∨ (k = k0 ∧ p = p0) := by
  unfold sbpInsertPair
  split_ifs with hany
  · obtain ⟨e0, he0, hk0⟩ := List.any_eq_true.mp hany
    replace hk0 : e0.1 = k0 := of_decide_eq_true hk0
    constructor
    · rintro ⟨e', he', hk, hp⟩
      obtain ⟨e, he, rfl⟩ := List.mem_map.mp he'
      by_cases h0 : e.1 = k0
      · rw [if_pos h0] at hk hp
        simp only at hk
        rcases mem_setInsert.mp hp with hmem | rfl
        · exact Or.inl ⟨e, he, hk, hmem⟩
        · exact Or.inr ⟨hk.symm.trans h0, rfl⟩
      · rw [if_neg h0] at hk hp
        exact Or.inl ⟨e, he, hk, hp⟩
    · rintro (⟨e, he, hk, hp⟩ | ⟨rfl, rfl⟩)
      · refine ⟨_, List.mem_map_of_mem _ he, ?_, ?_⟩
        · split_ifs <;> simpa using hk
        · split_ifs with h0
          · exact mem_setInsert.mpr (Or.inl hp)
          · exact hp
      · refine ⟨_, List.mem_map_of_mem _ he0, ?_, ?_⟩
        · rw [if_pos hk0]
          exact hk0
        · rw [if_pos hk0]
          exact mem_setInsert.mpr (Or.inr rfl)
  · rw [sbpContainsP_append, sbpContainsP_cons]
    unfold sbpContainsP
    simp only [List.not_mem_nil, false_and, and_false, exists_false,
      List.mem_singleton, or_false, eq_comm]

theorem sbpContainsP_foldIns {ks : List ProjectKey}
    {idx : List (ProjectKey × List ProjectKeyPair)} {p0 p : ProjectKeyPair}
    {k : ProjectKey} :
    sbpContainsP (ks.foldl (fun i k2 => sbpInsertPair i k2 p0) idx) k p ↔
      sbpContainsP idx k p ∨ (k ∈ ks ∧ p = p0) := by
  induction ks generalizing idx with
  | nil => simp
  | cons k2 t ih =>
      rw [List.foldl_cons, ih, sbpContainsP_insert]
      simp only [List.mem_cons]
      tauto

theorem sbpContainsP_foldRem {ks : List ProjectKey}
    {idx : List (ProjectKey × List ProjectKeyPair)} {p0 p : ProjectKeyPair}
    {k : ProjectKey} :
    sbpContainsP (ks.foldl (fun i k2 => sbpRemovePair i k2 p0) idx) k p ↔
      sbpContainsP idx k p ∧ (k ∈ ks → p ≠ p0) := by
  induction ks generalizing idx with
  | nil => simp
  | cons k2 t ih =>
      rw [List.foldl_cons, ih, sbpContainsP_remove]
      simp only [List.mem_cons]
      tauto

theorem sbpRemovePair_keys (idx : List (ProjectKey × List ProjectKeyPair))
    (k0 : ProjectKey) (p0 : ProjectKeyPair) :
    (sbpRemovePair idx k0 p0).map Prod.fst = idx.map Prod.fst := by
  induction idx with
  | nil => rfl
  | cons e t ih =>
      simp only [sbpRemovePair, List.map_cons] at ih ⊢
      rw [ih]
      congr 1
      split_ifs <;> rfl

theorem foldRem_keys (ks : List ProjectKey)
    (idx : List (ProjectKey × List ProjectKeyPair)) (p0 : ProjectKeyPair) :
    ((ks.foldl (fun i k2 => sbpRemovePair i k2 p0) idx).map Prod.fst) =
      idx.map Prod.fst := by
  induction ks generalizing idx with
  | nil => rfl
  | cons k2 t ih => rw [List.foldl_cons, ih, sbpRemovePair_keys]

theorem sbpInsertPair_keys_nodup {idx : List (ProjectKey × List ProjectKeyPair)}
    {k0 : ProjectKey} {p0 : ProjectKeyPair} (h : (idx.map Prod.fst).Nodup) :
    ((sbpInsertPair idx k0 p0).map Prod.fst).Nodup := by
  unfold sbpInsertPair
  split_ifs with hany
  · have hkeys : ((idx.map (fun e =>
        if e.1 = k0 then (e.1, setInsert e.2 p0) else e)).map Prod.fst) =
        idx.map Prod.fst := by
      clear h hany
      induction idx with
      | nil => rfl
      | cons e t ih =>
          simp only [List.map_cons] at ih ⊢
          rw [ih]
          congr 1
          split_ifs <;> rfl
    rw [hkeys]
    exact h
  · have hk : k0 ∉ idx.map Prod.fst := by
      intro hk
      obtain ⟨e, he, hke⟩ := List.mem_map.mp hk
      exact hany (List.any_eq_true.mpr ⟨e, he, decide_eq_true hke⟩)
    rw [List.map_append]
    exact List.Nodup.append h (List.nodup_singleton k0)
      (List.disjoint_singleton.mpr hk)

theorem foldIns_keys_nodup {ks : List ProjectKey}
    {idx : List (ProjectKey × List ProjectKeyPair)} {p0 : ProjectKeyPair}
    (h : (idx.map Prod.fst).Nodup) :
    (((ks.foldl (fun i k2 => sbpInsertPair i k2 p0) idx)).map Prod.fst).Nodup := by
  induction ks generalizing idx with
  | nil => exact h
  | cons k2 t ih => exact ih (sbpInsertPair_keys_nodup h)

theorem indexSound_insert {idx : List (ProjectKey × List ProjectKeyPair)}
    {k0 : ProjectKey} {p0 : ProjectKeyPair} (hs : indexSound idx)
    (hk : k0 ∈ ProjectKeyPair.iter p0) :
    indexSound (sbpInsertPair idx k0 p0) := by
  unfold sbpInsertPair
  split_ifs with hany
  · intro e' he' p hp
    obtain ⟨e, he, rfl⟩ := List.mem_map.mp he'
    by_cases h0 : e.1 = k0
    · simp only [if_pos h0] at hp ⊢
      rcases mem_setInsert.mp hp with hmem | rfl
      · exact hs e he p hmem
      · exact h0 ▸ hk
    · simp only [if_neg h0] at hp ⊢
      exact hs e he p hp
  · intro e' he' p hp
    rcases List.mem_append.mp he' with h | h
    · exact hs e' h p hp
    · rw [List.mem_singleton] at h
      subst h
      rw [List.mem_singleton] at hp
      subst hp
      exact hk

theorem indexSound_remove {idx : List (ProjectKey × List ProjectKeyPair)}
    {k0 : ProjectKey} {p0 : ProjectKeyPair} (hs : indexSound idx) :
    indexSound (sbpRemovePair idx k0 p0) := by
  intro e' he' p hp
  obtain ⟨e, he, rfl⟩ := List.mem_map.mp he'
  by_cases h0 : e.1 = k0
  · simp only [if_pos h0] at hp ⊢
    exact hs e he p (List.mem_filter.mp hp).1
  · simp only [if_neg h0] at hp ⊢
    exact hs e he p hp

theorem indexSound_foldIns {ks : List ProjectKey}
    {idx : List (ProjectKey × List ProjectKeyPair)} {p0 : ProjectKeyPair}
    (hs : indexSound idx) (hks : ∀ k ∈ ks, k ∈ ProjectKeyPair.iter p0) :
    indexSound (ks.foldl (fun i k2 => sbpInsertPair i k2 p0) idx) := by
  induction ks generalizing idx with
  | nil => exact hs
  | cons k2 t ih =>
      exact ih (indexSound_insert hs (hks k2 (List.mem_cons_self k2 t)))
        (fun k hk => hks k (List.mem_cons_of_mem k2 hk))

theorem indexSound_foldRem {ks : List ProjectKey}
    {idx : List (ProjectKey × List ProjectKeyPair)} {p0 : ProjectKeyPair}
    (hs : indexSound idx) :
    indexSound (ks.foldl (fun i k2 => sbpRemovePair i k2 p0) idx) := by
  induction ks generalizing idx with
  | nil => exact hs
  | cons k2 t ih => exact ih (indexSound_remove hs)

/-! ## Operation-level helper lemmas -/

theorem updateEntries_comp (pair : ProjectKeyPair) (f g : QueueEntry → QueueEntry)
    (hg : ∀ en, (g en).key = en.key) (q : List QueueEntry) :
    updateEntries pair f (updateEntries pair g q) =
      q.map (fun en => if en.key = pair then f (g en) else en) := by
  induction q with
  | nil => rfl
  | cons en t ih =>
      rw [updateEntries_cons, List.map_cons]
      by_cases h : en.key = pair
      · rw [if_pos h, updateEntries_cons, if_pos ((hg en).trans h), if_pos h, ih]
      · rw [if_neg h, updateEntries_cons, if_neg h, if_neg h, ih]

theorem queueTop_some_of_ne_nil {q : List QueueEntry} (h : q ≠ []) :
    ∃ en, queueTop q = some en := by
  cases hq : queueTop q with
  | none => exact absurd (queueTop_eq_none.mp hq) h
  | some en => exact ⟨en, rfl⟩

theorem head?_eq_some_iff {α : Type} {l : List α} {x : α} :
    l.head? = some x ↔ ∃ t, l = x :: t := by
  cases l <;> simp

/-- C9: `flush` leaves `total_count` and `tracked_count` (and hence
`item_count`) unchanged even though the priority queue is emptied and a
subsequent `peek` returns `Empty`. -/
theorem flush_count_frame (b : EnvelopeBuffer) :
    (b.flush).total_count = b.total_count ∧
    (b.flush).tracked_count = b.tracked_count ∧
    (b.flush).item_count = b.item_count ∧
    (b.flush).priority_queue = [] ∧
    ((b.flush).peek).1 = Peek.empty :=
  ⟨rfl, rfl, rfl, rfl, rfl⟩

/-- C10: `mark_ready` on a key with no entry in `stacks_by_project` returns
`false` and leaves the buffer untouched; `mark_seen` on a pair with no queue
entry leaves the whole buffer state unchanged. -/
theorem absent_target_noop (b : EnvelopeBuffer) (k : ProjectKey) (rdy : Bool)
    (pair : ProjectKeyPair) (d now : Int) :
    (b.stacks_by_project.find? (fun e => decide (e.1 = k)) = none →
      b.mark_ready k rdy = (false, b)) ∧
    ((∀ en ∈ b.priority_queue, en.key ≠ pair) →
      b.mark_seen pair d now = b) := by
  constructor
  · intro h
    unfold EnvelopeBuffer.mark_ready
    rw [h]
  · intro h
    unfold EnvelopeBuffer.mark_seen
    rw [updateEntries_id _ h]

/-- Witness for C10: on the empty buffer both operations are no-ops. -/
theorem absent_target_noop_witness :
    EnvelopeBuffer.new.mark_ready 3 true = (false, EnvelopeBuffer.new) ∧
    EnvelopeBuffer.new.mark_seen { own_key := 1, sampling_key := 2 } 5 0 =
      EnvelopeBuffer.new :=
  ⟨(absent_target_noop EnvelopeBuffer.new 3 true
      { own_key := 1, sampling_key := 2 } 5 0).1 rfl,
   (absent_target_noop EnvelopeBuffer.new 3 true
      { own_key := 1, sampling_key := 2 } 5 0).2 (by decide)⟩

/-- C8: under invariant I2 (no empty stack in the queue), the inner stack pop
inside `EnvelopeBuffer::pop` yields an envelope whenever the queue is
non-empty, so the `expect("found an empty stack")` panic is unreachable. -/
theorem pop_panic_unreachable (b : EnvelopeBuffer)
    (h2 : ∀ q ∈ b.priority_queue, q.value ≠ [])
    (hne : b.priority_queue ≠ []) :
    ∃ e b', b.pop = some (some e, b') := by
  obtain ⟨en, hq⟩ := queueTop_some_of_ne_nil hne
  have hval := h2 en (queueTop_mem hq)
  cases hv : en.value with
  | nil => exact absurd hv hval
  | cons x xs =>
      unfold EnvelopeBuffer.pop
      simp only [hq, hv]
      exact ⟨x, _, rfl⟩

/-- Witness for C8: a buffer with one pushed envelope pops successfully. -/
theorem pop_panic_unreachable_witness :
    ∃ e b', (EnvelopeBuffer.new.push 0
      { received_at := 5, own_project_key := 1,
        sampling_project_key := none }).pop = some (some e, b') :=
  pop_panic_unreachable _ (by decide) (by decide)

theorem pop_of_top_head {b : EnvelopeBuffer} {en : QueueEntry} {e : Envelope}
    (hq : queueTop b.priority_queue = some en) (hv : en.value.head? = some e) :
    ∃ b', b.pop = some (some e, b') := by
  obtain ⟨t, hval⟩ := head?_eq_some_iff.mp hv
  unfold EnvelopeBuffer.pop
  simp only [hq, hval]
  exact ⟨_, rfl⟩

/-- C5: `peek` is idempotent and non-destructive: it returns the state
unchanged, a second peek returns the identical result, the next pop is
unaffected, and a non-empty peek reports exactly the `received_at` of the
envelope that the next pop returns. -/
theorem peek_idempotent_nondestructive (b : EnvelopeBuffer) :
    ((b.peek).2 = b) ∧
    (((b.peek).2.peek).1 = (b.peek).1) ∧
    ((b.peek).2.pop = b.pop) ∧
    (∀ pkp t, (b.peek).1 = Peek.ready pkp t →
      ∃ e b', b.pop = some (some e, b') ∧ e.received_at = t) ∧
    (∀ pkp nf t, (b.peek).1 = Peek.notReady pkp nf t →
      ∃ e b', b.pop = some (some e, b') ∧ e.received_at = t) := by
  have hsnd : (b.peek).2 = b := by
    unfold EnvelopeBuffer.peek
    cases hq : queueTop b.priority_queue with
    | none => rfl
    | some en =>
        simp only [hq]
        cases hv : en.value.head? with
        | none => rfl
        | some e => cases hr : en.prio.readiness.ready <;> rfl
  refine ⟨hsnd, by rw [hsnd], by rw [hsnd], ?_, ?_⟩
  · intro pkp t h
    unfold EnvelopeBuffer.peek at h
    cases hq : queueTop b.priority_queue with
    | none => rw [hq] at h; exact absurd h (by simp)
    | some en =>
        simp only [hq] at h
        cases hv : en.value.head? with
        | none => simp only [hv] at h; exact absurd h (by simp)
        | some e =>
            cases hr : en.prio.readiness.ready with
            | false => simp only [hv, hr] at h; exact absurd h (by simp)
            | true =>
                simp only [hv, hr] at h
                obtain ⟨b', hb⟩ := pop_of_top_head hq hv
                rw [Peek.ready.injEq] at h
                exact ⟨e, b', hb, h.2⟩
  · intro pkp nf t h
    unfold EnvelopeBuffer.peek at h
    cases hq : queueTop b.priority_queue with
    | none => rw [hq] at h; exact absurd h (by simp)
    | some en =>
        simp only [hq] at h
        cases hv : en.value.head? with
        | none => simp only [hv] at h; exact absurd h (by simp)
        | some e =>
            cases hr : en.prio.readiness.ready with
            | true => simp only [hv, hr] at h; exact absurd h (by simp)
            | false =>
                simp only [hv, hr] at h
                obtain ⟨b', hb⟩ := pop_of_top_head hq hv
                rw [Peek.notReady.injEq] at h
                exact ⟨e, b', hb, h.2.2⟩

/-- Witness for C5 on a one-envelope buffer: peek reports the timestamp that
pop then returns. -/
theorem peek_idempotent_nondestructive_witness :
    ∃ e b', (EnvelopeBuffer.new.push 0
      { received_at := 7, own_project_key := 2,
        sampling_project_key := none }).pop = some (some e, b') ∧
      e.received_at = 7 :=
  (peek_idempotent_nondestructive (EnvelopeBuffer.new.push 0
      { received_at := 7, own_project_key := 2,
        sampling_project_key := none })).2.2.2.1
    { own_key := 2, sampling_key := 2 } 7 (by decide)

theorem push_queue_of_existing (b : EnvelopeBuffer) (now : Int) (e : Envelope)
    (hfind : (b.priority_queue.find?
      (fun en => decide (en.key = ProjectKeyPair.from_envelope e))).isSome) :
    b.push now e = { b with
      priority_queue :=
        (updateEntries (ProjectKeyPair.from_envelope e)
          (fun en => { en with prio := { en.prio with received_at := e.received_at } })
          (updateEntries (ProjectKeyPair.from_envelope e)
            (fun en => { en with value := e :: en.value }) b.priority_queue)),
      total_count := b.total_count + 1,
      tracked_count := b.tracked_count + 1 } := by
  simp only [EnvelopeBuffer.push]
  rw [if_pos hfind]

/-- C7: `push` on a pair that already has a queue entry changes only that
entry's stack and its priority's `received_at`; it never touches readiness
or `next_project_fetch` of any entry, any other pair's priority, or the
reverse index. -/
theorem push_existing_frame (b : EnvelopeBuffer) (now : Int) (e : Envelope)
    (h : ∃ en ∈ b.priority_queue, en.key = ProjectKeyPair.from_envelope e) :
    (b.push now e).priority_queue = b.priority_queue.map (fun en =>
        if en.key = ProjectKeyPair.from_envelope e then
          { en with value := e :: en.value,
                    prio := { en.prio with received_at := e.received_at } }
        else en) ∧
    (b.push now e).stacks_by_project = b.stacks_by_project ∧
    (∀ en2 ∈ (b.push now e).priority_queue, ∃ en0 ∈ b.priority_queue,
       en2.prio.readiness = en0.prio.readiness ∧
       en2.prio.next_project_fetch = en0.prio.next_project_fetch ∧
       (en0.key ≠ ProjectKeyPair.from_envelope e → en2 = en0)) := by
  obtain ⟨en, hen, hkey⟩ := h
  have hfind : (b.priority_queue.find?
      (fun en => decide (en.key = ProjectKeyPair.from_envelope e))).isSome :=
    List.find?_isSome.mpr ⟨en, hen, decide_eq_true hkey⟩
  rw [push_queue_of_existing b now e hfind]
  refine ⟨?_, rfl, ?_⟩
  · exact updateEntries_comp (ProjectKeyPair.from_envelope e)
      (fun en => { en with prio := { en.prio with received_at := e.received_at } })
      (fun en => { en with value := e :: en.value })
      (fun _ => rfl) b.priority_queue
  · intro en2 hen2
    have hmem : en2 ∈ updateEntries (ProjectKeyPair.from_envelope e)
        (fun en => { en with prio := { en.prio with received_at := e.received_at } })
        (updateEntries (ProjectKeyPair.from_envelope e)
          (fun en => { en with value := e :: en.value }) b.priority_queue) := hen2
    rw [updateEntries_comp (ProjectKeyPair.from_envelope e)
      (fun en => { en with prio := { en.prio with received_at := e.received_at } })
      (fun en => { en with value := e :: en.value })
      (fun _ => rfl) b.priority_queue] at hmem
    obtain ⟨en0, hen0, rfl⟩ := List.mem_map.mp hmem
    refine ⟨en0, hen0, ?_⟩
    by_cases hk : en0.key = ProjectKeyPair.from_envelope e
    · rw [if_pos hk]
      exact ⟨rfl, rfl, fun hne => absurd hk hne⟩
    · rw [if_neg hk]
      exact ⟨rfl, rfl, fun _ => rfl⟩

/-- Witness for C7: pushing a second envelope for an existing pair rewrites
only that entry. -/
theorem push_existing_frame_witness :
    ((EnvelopeBuffer.new.push 0
        { received_at := 1, own_project_key := 4, sampling_project_key := none }).push 0
        { received_at := 2, own_project_key := 4,
          sampling_project_key := none }).stacks_by_project =
      (EnvelopeBuffer.new.push 0
        { received_at := 1, own_project_key := 4,
          sampling_project_key := none }).stacks_by_project :=
  (push_existing_frame (EnvelopeBuffer.new.push 0
      { received_at := 1, own_project_key := 4, sampling_project_key := none }) 0
      { received_at := 2, own_project_key := 4, sampling_project_key := none }
      (by decide)).2.1

theorem updateEntries_length (pair : ProjectKeyPair) (f : QueueEntry → QueueEntry)
    (q : List QueueEntry) : (updateEntries pair f q).length = q.length := by
  simp [updateEntries]

/-- C3: on an empty queue, pop returns nothing and leaves the buffer
unchanged; otherwise it removes and returns the top envelope of the top
entry's stack, then removes the entry (from the queue and from the reverse
index set of every key the pair iterates) exactly when the remaining stack
is empty, and otherwise only updates the entry's priority `received_at` to
the new top envelope's timestamp and removes nothing. -/
theorem pop_behavior (b : EnvelopeBuffer) :
    (queueTop b.priority_queue = none → b.pop = some (none, b)) ∧
    (∀ en e rest, queueTop b.priority_queue = some en → en.value = e :: rest →
      ∃ b', b.pop = some (some e, b') ∧
        b'.total_count = b.total_count - 1 ∧
        b'.tracked_count = b.tracked_count - 1 ∧
        (rest = [] →
          b'.priority_queue =
            b.priority_queue.filter (fun q => decide (q.key ≠ en.key)) ∧
          (∀ k ∈ en.key.iter, ¬ sbpContainsP b'.stacks_by_project k en.key)) ∧
        (∀ e2 t, rest = e2 :: t →
          b'.stacks_by_project = b.stacks_by_project ∧
          b'.priority_queue.length = b.priority_queue.length ∧
          ∃ q, q ∈ b'.priority_queue ∧ q.key = en.key ∧ q.value = rest ∧
            q.prio.received_at = e2.received_at ∧
            q.prio.readiness = en.prio.readiness ∧
            q.prio.next_project_fetch = en.prio.next_project_fetch)) := by
  constructor
  · intro h
    unfold EnvelopeBuffer.pop
    simp only [h]
  · intro en e rest hq hv
    unfold EnvelopeBuffer.pop
    simp only [hq, hv]
    cases rest with
    | nil =>
        refine ⟨_, rfl, rfl, rfl, ?_, ?_⟩
        · intro _
          refine ⟨rfl, ?_⟩
          intro k hk hc
          exact (sbpContainsP_foldRem.mp hc).2 hk rfl
        · intro e2 t ht
          exact absurd ht (by simp)
    | cons e2 t =>
        refine ⟨_, rfl, rfl, rfl, ?_, ?_⟩
        · intro h0
          exact absurd h0 (by simp)
        · intro e2' t' ht
          injection ht with h1 h2
          subst h1
          subst h2
          refine ⟨rfl, updateEntries_length _ _ _, ?_⟩
          refine ⟨{ en with value := e2 :: t, prio := { en.prio with received_at := e2.received_at } }, ?_, rfl, rfl, rfl, rfl, rfl⟩
          exact List.mem_map.mpr ⟨en, queueTop_mem hq, by rw [if_pos rfl]⟩

/-- Witness for C3 on a one-envelope buffer: pop returns that envelope. -/
theorem pop_behavior_witness :
    ∃ b', (EnvelopeBuffer.new.push 0
      { received_at := 5, own_project_key := 3,
        sampling_project_key := none }).pop = some (some
      { received_at := 5, own_project_key := 3,
        sampling_project_key := none }, b') := by
  obtain ⟨b', hb, -⟩ := (pop_behavior (EnvelopeBuffer.new.push 0
      { received_at := 5, own_project_key := 3,
        sampling_project_key := none })).2
    { key := { own_key := 3, sampling_key := 3 },
      value := [{ received_at := 5, own_project_key := 3,
                  sampling_project_key := none }],
      prio := Priority.new 5 0 }
    { received_at := 5, own_project_key := 3, sampling_project_key := none }
    [] (by decide) rfl
  exact ⟨b', hb⟩

/-- Witness for C6: two ready priorities with equal timestamps but different
fetch deadlines compare equal (antisymmetry instance). -/
theorem priority_cmp_total_order_witness :
    Priority.cmp (Priority.new 2 0) (Priority.new 2 9) = Ordering.eq :=
  (priority_cmp_total_order (Priority.new 2 0) (Priority.new 2 9)
    (Priority.new 2 0)).2.2.2.1 (by decide) (by decide)

/-! ## Counting invariant (C4) -/

/-- The inductive invariant threaded through push/pop sequences: no empty
stack sits in the queue (I2), queue keys are unique (I3), and
`tracked_count` equals the number of buffered envelopes. -/
def countInv (b : EnvelopeBuffer) : Prop :=
  (∀ q ∈ b.priority_queue, q.value ≠ []) ∧
  (b.priority_queue.map QueueEntry.key).Nodup ∧
  b.tracked_count = stackSum b.priority_queue

theorem push_eq_of_absent (b : EnvelopeBuffer) (now : Int) (e : Envelope)
    (hfind : (b.priority_queue.find?
      (fun en => decide (en.key = ProjectKeyPair.from_envelope e))).isSome = false) :
    b.push now e = { b with
      priority_queue :=
        (updateEntries (ProjectKeyPair.from_envelope e)
          (fun en => { en with prio := { en.prio with received_at := e.received_at } })
          (b.priority_queue ++ [{ key := ProjectKeyPair.from_envelope e,
                                  value := [e],
                                  prio := Priority.new e.received_at now }])),
      stacks_by_project :=
        ((ProjectKeyPair.from_envelope e).iter.foldl
          (fun idx k => sbpInsertPair idx k (ProjectKeyPair.from_envelope e))
          b.stacks_by_project),
      total_count := b.total_count + 1,
      tracked_count := b.tracked_count + 1 } := by
  simp only [EnvelopeBuffer.push]
  rw [if_neg (by simp [hfind])]
  rfl

theorem find?_eq_false_keys {b : EnvelopeBuffer} {pair : ProjectKeyPair}
    (hfind : (b.priority_queue.find?
      (fun en => decide (en.key = pair))).isSome = false) :
    ∀ en ∈ b.priority_queue, en.key ≠ pair := by
  intro en hen hkey
  have : (b.priority_queue.find? (fun en => decide (en.key = pair))).isSome :=
    List.find?_isSome.mpr ⟨en, hen, decide_eq_true hkey⟩
  rw [hfind] at this
  exact absurd this (by simp)

theorem push_countInv (b : EnvelopeBuffer) (now : Int) (e : Envelope)
    (h : countInv b) :
    countInv (b.push now e) ∧
      (b.push now e).tracked_count = b.tracked_count + 1 := by
  obtain ⟨hI2, hnd, hsum⟩ := h
  by_cases hfind : (b.priority_queue.find?
      (fun en => decide (en.key = ProjectKeyPair.from_envelope e))).isSome
  · obtain ⟨en, hen, hpred⟩ := List.find?_isSome.mp hfind
    replace hpred : en.key = ProjectKeyPair.from_envelope e :=
      of_decide_eq_true hpred
    obtain ⟨l1, l2, hqeq, h1, h2⟩ := mem_split_keys_nodup hen hnd
    have h1' : ∀ x ∈ l1, x.key ≠ ProjectKeyPair.from_envelope e :=
      fun x hx => hpred ▸ h1 x hx
    have h2' : ∀ x ∈ l2, x.key ≠ ProjectKeyPair.from_envelope e :=
      fun x hx => hpred ▸ h2 x hx
    rw [push_queue_of_existing b now e hfind]
    have hup : updateEntries (ProjectKeyPair.from_envelope e)
        (fun en => { en with prio := { en.prio with received_at := e.received_at } })
        (updateEntries (ProjectKeyPair.from_envelope e)
          (fun en => { en with value := e :: en.value }) b.priority_queue) =
        l1 ++ { en with value := e :: en.value, prio := { en.prio with received_at := e.received_at } } :: l2 := by
      rw [hqeq,
        updateEntries_split (ProjectKeyPair.from_envelope e)
          (fun en => { en with value := e :: en.value }) l1 l2 en hpred h1' h2',
        updateEntries_split (ProjectKeyPair.from_envelope e)
          (fun en => { en with prio := { en.prio with received_at := e.received_at } })
          l1 l2 { en with value := e :: en.value } hpred h1' h2']
    refine ⟨⟨?_, ?_, ?_⟩, rfl⟩
    · intro x hx
      simp only [hup] at hx
      rcases List.mem_append.mp hx with hx1 | hx2
      · exact hI2 x (hqeq ▸ List.mem_append_left _ hx1)
      · rcases List.mem_cons.mp hx2 with rfl | hx3
        · simp
        · exact hI2 x (hqeq ▸ List.mem_append_right _ (List.mem_cons_of_mem _ hx3))
    · simp only [hup, List.map_append, List.map_cons]
      rw [hqeq] at hnd
      simpa [List.map_append, List.map_cons] using hnd
    · simp only [hup, stackSum_append, stackSum_cons, List.length_cons]
      rw [hqeq] at hsum
      simp only [stackSum_append, stackSum_cons] at hsum
      omega
  · rw [Bool.not_eq_true] at hfind
    have hkeys := find?_eq_false_keys hfind
    rw [push_eq_of_absent b now e hfind]
    have hup : updateEntries (ProjectKeyPair.from_envelope e)
        (fun en => { en with prio := { en.prio with received_at := e.received_at } })
        (b.priority_queue ++ [{ key := ProjectKeyPair.from_envelope e,
                                value := [e],
                                prio := Priority.new e.received_at now }]) =
        b.priority_queue ++ [{ key := ProjectKeyPair.from_envelope e,
                               value := [e],
                               prio := { readiness := Readiness.new,
                                         received_at := e.received_at,
                                         next_project_fetch := now } }] := by
      rw [updateEntries_append, updateEntries_id _ hkeys, updateEntries_cons,
        if_pos rfl, updateEntries_nil]
      rfl
    refine ⟨⟨?_, ?_, ?_⟩, rfl⟩
    · intro x hx
      simp only [hup] at hx
      rcases List.mem_append.mp hx with hx1 | hx2
      · exact hI2 x hx1
      · rcases List.mem_cons.mp hx2 with rfl | hx3
        · simp
        · exact absurd hx3 (List.not_mem_nil x)
    · simp only [hup, List.map_append, List.map_cons, List.map_nil]
      refine List.Nodup.append hnd (List.nodup_singleton _) ?_
      rw [List.disjoint_singleton]
      intro hc
      obtain ⟨x, hx, hxk⟩ := List.mem_map.mp hc
      exact hkeys x hx hxk
    · simp only [hup, stackSum_append, stackSum_cons, stackSum_nil]
      simp only [List.length_cons, List.length_nil]
      omega

theorem filter_ne_key_split {l1 l2 : List QueueEntry} {en : QueueEntry}
    (h1 : ∀ x ∈ l1, x.key ≠ en.key) (h2 : ∀ x ∈ l2, x.key ≠ en.key) :
    (l1 ++ en :: l2).filter (fun q => decide (q.key ≠ en.key)) = l1 ++ l2 := by
  have hl1 : l1.filter (fun q => decide (q.key ≠ en.key)) = l1 :=
    List.filter_eq_self.mpr (fun a ha => decide_eq_true (h1 a ha))
  have hl2 : l2.filter (fun q => decide (q.key ≠ en.key)) = l2 :=
    List.filter_eq_self.mpr (fun a ha => decide_eq_true (h2 a ha))
  rw [List.filter_append, hl1, List.filter_cons, if_neg (by simp), hl2]

theorem pop_countInv (b : EnvelopeBuffer) (h : countInv b) :
    (b.priority_queue = [] → b.pop = some (none, b)) ∧
    (b.priority_queue ≠ [] → ∃ e b', b.pop = some (some e, b') ∧ countInv b' ∧
      b'.tracked_count + 1 = b.tracked_count) := by
  obtain ⟨hI2, hnd, hsum⟩ := h
  constructor
  · intro hq
    unfold EnvelopeBuffer.pop
    simp only [queueTop_eq_none.mpr hq]
  · intro hne
    obtain ⟨en, hq⟩ := queueTop_some_of_ne_nil hne
    have hmem := queueTop_mem hq
    obtain ⟨l1, l2, hqeq, h1, h2⟩ := mem_split_keys_nodup hmem hnd
    rw [hqeq] at hnd hsum
    rw [List.map_append, List.map_cons, List.nodup_middle, List.nodup_cons]
      at hnd
    rw [stackSum_append, stackSum_cons] at hsum
    cases hv : en.value with
    | nil => exact absurd hv (hI2 en hmem)
    | cons e rest =>
        unfold EnvelopeBuffer.pop
        simp only [hq, hv]
        cases rest with
        | nil =>
            have hfq : b.priority_queue.filter
                (fun q => decide (q.key ≠ en.key)) = l1 ++ l2 := by
              rw [hqeq]
              exact filter_ne_key_split h1 h2
            refine ⟨e, _, rfl, ⟨?_, ?_, ?_⟩, ?_⟩
            · intro x hx
              have hx' : x ∈ b.priority_queue.filter
                  (fun q => decide (q.key ≠ en.key)) := hx
              rw [hfq] at hx'
              rcases List.mem_append.mp hx' with hx1 | hx2
              · exact hI2 x (hqeq ▸ List.mem_append_left _ hx1)
              · exact hI2 x
                  (hqeq ▸ List.mem_append_right _ (List.mem_cons_of_mem _ hx2))
            · show ((b.priority_queue.filter
                (fun q => decide (q.key ≠ en.key))).map QueueEntry.key).Nodup
              rw [hfq, List.map_append]
              exact hnd.2
            · show b.tracked_count - 1 = stackSum (b.priority_queue.filter
                (fun q => decide (q.key ≠ en.key)))
              rw [hfq, stackSum_append]
              rw [hv] at hsum
              simp only [List.length_cons, List.length_nil] at hsum
              omega
            · show b.tracked_count - 1 + 1 = b.tracked_count
              rw [hv] at hsum
              simp only [List.length_cons, List.length_nil] at hsum
              omega
        | cons e2 t =>
            have hup : updateEntries en.key
                (fun q => { q with value := e2 :: t, prio := { q.prio with received_at := e2.received_at } })
                b.priority_queue =
                l1 ++ { en with value := e2 :: t, prio := { en.prio with received_at := e2.received_at } } :: l2 := by
              rw [hqeq]
              exact updateEntries_split en.key _ l1 l2 en rfl h1 h2
            refine ⟨e, _, rfl, ⟨?_, ?_, ?_⟩, ?_⟩
            · intro x hx
              have hx' : x ∈ updateEntries en.key
                  (fun q => { q with value := e2 :: t, prio := { q.prio with received_at := e2.received_at } })
                  b.priority_queue := hx
              rw [hup] at hx'
              rcases List.mem_append.mp hx' with hx1 | hx2
              · exact hI2 x (hqeq ▸ List.mem_append_left _ hx1)
              · rcases List.mem_cons.mp hx2 with rfl | hx3
                · simp
                · exact hI2 x
                    (hqeq ▸ List.mem_append_right _ (List.mem_cons_of_mem _ hx3))
            · show ((updateEntries en.key
                (fun q => { q with value := e2 :: t, prio := { q.prio with received_at := e2.received_at } })
                b.priority_queue).map QueueEntry.key).Nodup
              rw [hup, List.map_append, List.map_cons, List.nodup_middle,
                List.nodup_cons]
              exact hnd
            · show b.tracked_count - 1 = stackSum (updateEntries en.key
                (fun q => { q with value := e2 :: t, prio := { q.prio with received_at := e2.received_at } })
                b.priority_queue)
              rw [hup, stackSum_append, stackSum_cons]
              rw [hv] at hsum
              simp only [List.length_cons] at hsum ⊢
              omega
            · show b.tracked_count - 1 + 1 = b.tracked_count
              rw [hv] at hsum
              simp only [List.length_cons] at hsum
              omega

theorem runOps_spec (ops : List BufOp) (b : EnvelopeBuffer) (h : countInv b) :
    ∃ b' pu po, runOps b ops = some (b', pu, po) ∧ countInv b' ∧
      b'.tracked_count + po = b.tracked_count + pu := by
  induction ops generalizing b with
  | nil => exact ⟨b, 0, 0, rfl, h, rfl⟩
  | cons op t ih =>
      cases op with
      | pushOp now e =>
          obtain ⟨hpi, hpt⟩ := push_countInv b now e h
          obtain ⟨b', pu, po, hrun, hinv, hcount⟩ := ih (b.push now e) hpi
          refine ⟨b', pu + 1, po, ?_, hinv, by omega⟩
          simp only [runOps, hrun, Option.map_some']
      | popOp =>
          by_cases hq : b.priority_queue = []
          · have hpop := (pop_countInv b h).1 hq
            obtain ⟨b', pu, po, hrun, hinv, hcount⟩ := ih b h
            refine ⟨b', pu, po, ?_, hinv, hcount⟩
            simp only [runOps, hpop, hrun]
          · obtain ⟨e, b2, hpop, hinv2, hcount2⟩ := (pop_countInv b h).2 hq
            obtain ⟨b', pu, po, hrun, hinv, hcount⟩ := ih b2 hinv2
            refine ⟨b', pu, po + 1, ?_, hinv, by omega⟩
            simp only [runOps, hpop, hrun, Option.map_some']

/-- C4: every sequence of push/pop operations from a fresh buffer succeeds,
and afterwards `tracked_count` equals the number of pushes minus the number
of pops that returned an envelope (each push increments it, each successful
pop saturating-decrements it; the difference never goes below zero). -/
theorem tracked_count_push_pop (ops : List BufOp) :
    ∃ b' pushes pops, runOps EnvelopeBuffer.new ops = some (b', pushes, pops) ∧
      pops ≤ pushes ∧ b'.tracked_count = pushes - pops := by
  obtain ⟨b', pu, po, hrun, _, hcount⟩ :=
    runOps_spec ops EnvelopeBuffer.new
      ⟨fun q hq => absurd hq (List.not_mem_nil q), List.nodup_nil, rfl⟩
  have h0 : EnvelopeBuffer.new.tracked_count = 0 := rfl
  rw [h0] at hcount
  exact ⟨b', pu, po, hrun, by omega, by omega⟩

/-! ## Invariant I1 preservation (C1) -/

theorem invariantI1_congr {b1 b2 : EnvelopeBuffer}
    (hq : b1.priority_queue.map QueueEntry.key =
      b2.priority_queue.map QueueEntry.key)
    (hi : b1.stacks_by_project = b2.stacks_by_project)
    (h : invariantI1 b1) : invariantI1 b2 := by
  obtain ⟨hf, hc⟩ := h
  constructor
  · intro en hen k hk
    have hmem : en.key ∈ b1.priority_queue.map QueueEntry.key := by
      rw [hq]
      exact List.mem_map_of_mem QueueEntry.key hen
    obtain ⟨en1, hen1, hkey⟩ := List.mem_map.mp hmem
    rw [← hi, ← hkey]
    exact hf en1 hen1 k (hkey ▸ hk)
  · intro e he p hp
    rw [← hi] at he
    have := hc e he p hp
    rw [hq] at this
    exact this

theorem bufferWF_congr {b1 b2 : EnvelopeBuffer}
    (hq : b1.priority_queue.map QueueEntry.key =
      b2.priority_queue.map QueueEntry.key)
    (hi : b1.stacks_by_project = b2.stacks_by_project)
    (h : bufferWF b1) : bufferWF b2 :=
  ⟨hq ▸ h.1, hi ▸ h.2.1, hi ▸ h.2.2⟩

theorem push_stack_queue (b : EnvelopeBuffer) (ct : StackCreationType)
    (pair : ProjectKeyPair) (envOpt : Option Envelope) (now : Int) :
    (b.push_stack ct pair envOpt now).priority_queue =
      b.priority_queue ++ [{ key := pair,
                             value := (match envOpt with
                               | some e => [e]
                               | none => []),
                             prio := Priority.new (match envOpt with
                               | some e => e.received_at
                               | none => now) now }] := by
  cases envOpt <;> rfl

theorem push_stack_idx (b : EnvelopeBuffer) (ct : StackCreationType)
    (pair : ProjectKeyPair) (envOpt : Option Envelope) (now : Int) :
    (b.push_stack ct pair envOpt now).stacks_by_project =
      pair.iter.foldl (fun idx k => sbpInsertPair idx k pair)
        b.stacks_by_project := by
  cases envOpt <;> rfl

theorem push_stack_keys (b : EnvelopeBuffer) (ct : StackCreationType)
    (pair : ProjectKeyPair) (envOpt : Option Envelope) (now : Int) :
    (b.push_stack ct pair envOpt now).priority_queue.map QueueEntry.key =
      b.priority_queue.map QueueEntry.key ++ [pair] := by
  rw [push_stack_queue, List.map_append]
  rfl

theorem push_stack_I1 (b : EnvelopeBuffer) (ct : StackCreationType)
    (pair : ProjectKeyPair) (envOpt : Option Envelope) (now : Int)
    (hWF : bufferWF b) (hI1 : invariantI1 b)
    (hfresh : pair ∉ b.priority_queue.map QueueEntry.key) :
    bufferWF (b.push_stack ct pair envOpt now) ∧
      invariantI1 (b.push_stack ct pair envOpt now) := by
  obtain ⟨hndq, hndi, hsound⟩ := hWF
  constructor
  · refine ⟨?_, ?_, ?_⟩
    · rw [push_stack_keys]
      exact List.Nodup.append hndq (List.nodup_singleton pair)
        (List.disjoint_singleton.mpr hfresh)
    · rw [push_stack_idx]
      exact foldIns_keys_nodup hndi
    · rw [push_stack_idx]
      exact indexSound_foldIns hsound (fun k hk => hk)
  · constructor
    · intro en hen k hk
      rw [push_stack_idx]
      rw [push_stack_queue] at hen
      rcases List.mem_append.mp hen with h1 | h1
      · exact sbpContainsP_foldIns.mpr (Or.inl (hI1.1 en h1 k hk))
      · rw [List.mem_singleton] at h1
        subst h1
        exact sbpContainsP_foldIns.mpr (Or.inr ⟨hk, rfl⟩)
    · intro e he p hp
      rw [push_stack_idx] at he
      have hcont : sbpContainsP (pair.iter.foldl
          (fun idx k => sbpInsertPair idx k pair) b.stacks_by_project) e.1 p :=
        ⟨e, he, rfl, hp⟩
      rw [push_stack_keys]
      rcases sbpContainsP_foldIns.mp hcont with h1 | ⟨_, rfl⟩
      · obtain ⟨e0, he0, _, hp0⟩ := h1
        exact List.mem_append_left _ (hI1.2 e0 he0 p hp0)
      · exact List.mem_append_right _ (List.mem_singleton.mpr rfl)

theorem pop_stack_I1 (b : EnvelopeBuffer) (pair : ProjectKeyPair)
    (hWF : bufferWF b) (hI1 : invariantI1 b) :
    bufferWF (b.pop_stack pair) ∧ invariantI1 (b.pop_stack pair) := by
  obtain ⟨hndq, hndi, hsound⟩ := hWF
  constructor
  · refine ⟨?_, ?_, ?_⟩
    · show ((b.priority_queue.filter
        (fun en => decide (en.key ≠ pair))).map QueueEntry.key).Nodup
      exact List.Nodup.sublist
        ((List.filter_sublist b.priority_queue).map QueueEntry.key) hndq
    · show ((pair.iter.foldl (fun idx k => sbpRemovePair idx k pair)
        b.stacks_by_project).map Prod.fst).Nodup
      rw [foldRem_keys]
      exact hndi
    · exact indexSound_foldRem hsound
  · constructor
    · intro en hen k hk
      have hen' : en ∈ b.priority_queue.filter
          (fun en => decide (en.key ≠ pair)) := hen
      rw [List.mem_filter] at hen'
      obtain ⟨hmem, hne⟩ := hen'
      replace hne : en.key ≠ pair := of_decide_eq_true hne
      show sbpContainsP (pair.iter.foldl
        (fun idx k => sbpRemovePair idx k pair) b.stacks_by_project) k en.key
      exact sbpContainsP_foldRem.mpr ⟨hI1.1 en hmem k hk, fun _ => hne⟩
    · intro e he p hp
      have hcont : sbpContainsP (pair.iter.foldl
          (fun idx k => sbpRemovePair idx k pair) b.stacks_by_project) e.1 p :=
        ⟨e, he, rfl, hp⟩
      obtain ⟨hbefore, himp⟩ := sbpContainsP_foldRem.mp hcont
      obtain ⟨e0, he0, hk0, hp0⟩ := hbefore
      have hmemkeys := hI1.2 e0 he0 p hp0
      obtain ⟨en0, hen0, hkey0⟩ := List.mem_map.mp hmemkeys
      by_cases hpp : p = pair
      · exfalso
        subst hpp
        have : e0.1 ∈ p.iter := hsound e0 he0 p hp0
        exact himp (hk0 ▸ this) rfl
      · show p ∈ (b.priority_queue.filter
          (fun en => decide (en.key ≠ pair))).map QueueEntry.key
        refine List.mem_map.mpr ⟨en0, ?_, hkey0⟩
        rw [List.mem_filter]
        exact ⟨hen0, decide_eq_true (hkey0 ▸ hpp)⟩

theorem push_I1 (b : EnvelopeBuffer) (now : Int) (e : Envelope)
    (hWF : bufferWF b) (hI1 : invariantI1 b) :
    bufferWF (b.push now e) ∧ invariantI1 (b.push now e) := by
  by_cases hfind : (b.priority_queue.find?
      (fun en => decide (en.key = ProjectKeyPair.from_envelope e))).isSome
  · rw [push_queue_of_existing b now e hfind]
    have hkeys : (updateEntries (ProjectKeyPair.from_envelope e)
        (fun en => { en with prio := { en.prio with received_at := e.received_at } })
        (updateEntries (ProjectKeyPair.from_envelope e)
          (fun en => { en with value := e :: en.value })
          b.priority_queue)).map QueueEntry.key =
        b.priority_queue.map QueueEntry.key := by
      rw [updateEntries_map_key (ProjectKeyPair.from_envelope e)
        (fun en => { en with prio := { en.prio with received_at := e.received_at } })
        (fun _ => rfl),
        updateEntries_map_key (ProjectKeyPair.from_envelope e)
        (fun en => { en with value := e :: en.value }) (fun _ => rfl)]
    exact ⟨bufferWF_congr hkeys.symm rfl hWF,
      invariantI1_congr hkeys.symm rfl hI1⟩
  · rw [Bool.not_eq_true] at hfind
    have hkeys0 := find?_eq_false_keys hfind
    have hfresh : ProjectKeyPair.from_envelope e ∉
        b.priority_queue.map QueueEntry.key := by
      intro hc
      obtain ⟨x, hx, hxk⟩ := List.mem_map.mp hc
      exact hkeys0 x hx hxk
    obtain ⟨hWF2, hI12⟩ := push_stack_I1 b StackCreationType.new
      (ProjectKeyPair.from_envelope e) (some e) now hWF hI1 hfresh
    rw [push_eq_of_absent b now e hfind]
    have hkeys : (updateEntries (ProjectKeyPair.from_envelope e)
        (fun en => { en with prio := { en.prio with received_at := e.received_at } })
        (b.priority_queue ++ [{ key := ProjectKeyPair.from_envelope e,
                                value := [e],
                                prio := Priority.new e.received_at now }])).map
          QueueEntry.key =
        (b.push_stack StackCreationType.new (ProjectKeyPair.from_envelope e)
          (some e) now).priority_queue.map QueueEntry.key := by
      rw [updateEntries_map_key (ProjectKeyPair.from_envelope e)
        (fun en => { en with prio := { en.prio with received_at := e.received_at } })
        (fun _ => rfl), push_stack_queue]
    refine ⟨bufferWF_congr hkeys.symm ?_ hWF2,
      invariantI1_congr hkeys.symm ?_ hI12⟩
    · rw [push_stack_idx]
    · rw [push_stack_idx]

theorem pop_I1 (b : EnvelopeBuffer) (hWF : bufferWF b) (hI1 : invariantI1 b) :
    ∀ r b', b.pop = some (r, b') → bufferWF b' ∧ invariantI1 b' := by
  intro r b' hpop
  unfold EnvelopeBuffer.pop at hpop
  cases hq : queueTop b.priority_queue with
  | none =>
      simp only [hq, Option.some.injEq, Prod.mk.injEq] at hpop
      obtain ⟨-, rfl⟩ := hpop
      exact ⟨hWF, hI1⟩
  | some en =>
      simp only [hq] at hpop
      cases hv : en.value with
      | nil =>
          rw [hv] at hpop
          exact absurd hpop (by simp)
      | cons e rest =>
          rw [hv] at hpop
          cases rest with
          | nil =>
              simp only [Option.some.injEq, Prod.mk.injEq] at hpop
              obtain ⟨-, rfl⟩ := hpop
              obtain ⟨hWF2, hI12⟩ := pop_stack_I1 b en.key hWF hI1
              exact ⟨bufferWF_congr rfl rfl hWF2,
                invariantI1_congr rfl rfl hI12⟩
          | cons e2 t =>
              simp only [Option.some.injEq, Prod.mk.injEq] at hpop
              obtain ⟨-, rfl⟩ := hpop
              have hkeys : (updateEntries en.key
                  (fun q => { q with value := e2 :: t, prio := { q.prio with received_at := e2.received_at } })
                  b.priority_queue).map QueueEntry.key =
                  b.priority_queue.map QueueEntry.key :=
                updateEntries_map_key en.key
                  (fun q => { q with value := e2 :: t, prio := { q.prio with received_at := e2.received_at } })
                  (fun _ => rfl) b.priority_queue
              exact ⟨bufferWF_congr hkeys.symm rfl hWF,
                invariantI1_congr hkeys.symm rfl hI1⟩

theorem markReadyStep_fst (project : ProjectKey) (is_ready : Bool)
    (acc : List QueueEntry × Bool) (pair : ProjectKeyPair) :
    (markReadyStep project is_ready acc pair).1 =
      updateEntries pair
        (fun en => { en with prio := (markReadyPrio pair project is_ready en.prio).1 })
        acc.1 := rfl

theorem markReadyFold_keys (project : ProjectKey) (is_ready : Bool)
    (pairs : List ProjectKeyPair) (acc : List QueueEntry × Bool) :
    ((pairs.foldl (markReadyStep project is_ready) acc).1).map QueueEntry.key =
      acc.1.map QueueEntry.key := by
  induction pairs generalizing acc with
  | nil => rfl
  | cons p t ih =>
      rw [List.foldl_cons, ih, markReadyStep_fst]
      exact updateEntries_map_key p
        (fun en => { en with prio := (markReadyPrio p project is_ready en.prio).1 })
        (fun _ => rfl) acc.1

theorem mark_ready_I1 (b : EnvelopeBuffer) (k : ProjectKey) (rdy : Bool)
    (hWF : bufferWF b) (hI1 : invariantI1 b) :
    bufferWF (b.mark_ready k rdy).2 ∧ invariantI1 (b.mark_ready k rdy).2 := by
  unfold EnvelopeBuffer.mark_ready
  cases hf : b.stacks_by_project.find? (fun e => decide (e.1 = k)) with
  | none => exact ⟨hWF, hI1⟩
  | some entry =>
      have hkeys : ((entry.2.foldl (markReadyStep k rdy)
          (b.priority_queue, false)).1).map QueueEntry.key =
          b.priority_queue.map QueueEntry.key :=
        markReadyFold_keys k rdy entry.2 (b.priority_queue, false)
      exact ⟨bufferWF_congr hkeys.symm rfl hWF,
        invariantI1_congr hkeys.symm rfl hI1⟩

theorem mark_seen_I1 (b : EnvelopeBuffer) (pair : ProjectKeyPair)
    (d now : Int) (hWF : bufferWF b) (hI1 : invariantI1 b) :
    bufferWF (b.mark_seen pair d now) ∧ invariantI1 (b.mark_seen pair d now) := by
  have hkeys : (updateEntries pair
      (fun en => { en with prio := { en.prio with next_project_fetch := now + d } })
      b.priority_queue).map QueueEntry.key =
      b.priority_queue.map QueueEntry.key :=
    updateEntries_map_key pair
      (fun en => { en with prio := { en.prio with next_project_fetch := now + d } })
      (fun _ => rfl) b.priority_queue
  exact ⟨bufferWF_congr hkeys.symm rfl hWF, invariantI1_congr hkeys.symm rfl hI1⟩

theorem load_stacks_I1 (pairs : List ProjectKeyPair) (b : EnvelopeBuffer)
    (now : Int) (hWF : bufferWF b) (hI1 : invariantI1 b)
    (hnd : pairs.Nodup)
    (hfresh : ∀ p ∈ pairs, p ∉ b.priority_queue.map QueueEntry.key) :
    bufferWF (b.load_stacks pairs now) ∧ invariantI1 (b.load_stacks pairs now) := by
  induction pairs generalizing b with
  | nil => exact ⟨hWF, hI1⟩
  | cons p t ih =>
      obtain ⟨hWF2, hI12⟩ := push_stack_I1 b StackCreationType.atStartup p none
        now hWF hI1 (hfresh p (List.mem_cons_self p t))
      rw [List.nodup_cons] at hnd
      refine ih (b.push_stack StackCreationType.atStartup p none now)
        hWF2 hI12 hnd.2 ?_
      intro p2 hp2 hc
      rw [push_stack_keys, List.mem_append] at hc
      rcases hc with hc | hc
      · exact hfresh p2 (List.mem_cons_of_mem p hp2) hc
      · rw [List.mem_singleton] at hc
        subst hc
        exact hnd.1 hp2

theorem initializeBuffer_I1 (b : EnvelopeBuffer) (pairs : List ProjectKeyPair)
    (cnt : Option Nat) (now : Int) (hWF : bufferWF b) (hI1 : invariantI1 b)
    (hnd : pairs.Nodup)
    (hfresh : ∀ p ∈ pairs, p ∉ b.priority_queue.map QueueEntry.key) :
    bufferWF (initializeBuffer b pairs cnt now) ∧
      invariantI1 (initializeBuffer b pairs cnt now) := by
  obtain ⟨hWF2, hI12⟩ := load_stacks_I1 pairs b now hWF hI1 hnd hfresh
  unfold initializeBuffer
  cases cnt with
  | none => exact ⟨bufferWF_congr rfl rfl hWF2, invariantI1_congr rfl rfl hI12⟩
  | some n => exact ⟨bufferWF_congr rfl rfl hWF2, invariantI1_congr rfl rfl hI12⟩

/-- Counterexample for C1 as stated: `flush` empties the priority queue via
`mem::take` but never clears `stacks_by_project`, so after flushing a buffer
holding one envelope the pair is still indexed while no queue entry exists,
violating invariant I1. -/
theorem flush_violates_I1 :
    ¬ invariantI1 ((EnvelopeBuffer.new.push 0
      { received_at := 5, own_project_key := 0,
        sampling_project_key := none }).flush) := by decide

/-- C1 (amended): invariant I1, together with structural well-formedness,
is preserved by `push`, `pop`, `mark_ready`, `mark_seen`, and
initialization over fresh pairs; `flush`, however, only empties the
priority queue (making the queue-to-index direction of I1 vacuous) and may
leave stale pairs in `stacks_by_project`. -/
theorem buffer_I1_preserved (b : EnvelopeBuffer) (now d : Int) (e : Envelope)
    (pair : ProjectKeyPair) (k : ProjectKey) (rdy : Bool)
    (pairs : List ProjectKeyPair) (cnt : Option Nat)
    (hWF : bufferWF b) (hI1 : invariantI1 b)
    (hpairs : pairs.Nodup ∧
      ∀ p ∈ pairs, p ∉ b.priority_queue.map QueueEntry.key) :
    (bufferWF (b.push now e) ∧ invariantI1 (b.push now e)) ∧
    (∀ r b', b.pop = some (r, b') → bufferWF b' ∧ invariantI1 b') ∧
    (bufferWF (b.mark_ready k rdy).2 ∧ invariantI1 (b.mark_ready k rdy).2) ∧
    (bufferWF (b.mark_seen pair d now) ∧
      invariantI1 (b.mark_seen pair d now)) ∧
    (bufferWF (initializeBuffer b pairs cnt now) ∧
      invariantI1 (initializeBuffer b pairs cnt now)) ∧
    ((b.flush).priority_queue = [] ∧
      ∀ en ∈ (b.flush).priority_queue, ∀ k2 ∈ en.key.iter,
        sbpContainsP (b.flush).stacks_by_project k2 en.key) :=
  ⟨push_I1 b now e hWF hI1,
   pop_I1 b hWF hI1,
   mark_ready_I1 b k rdy hWF hI1,
   mark_seen_I1 b pair d now hWF hI1,
   initializeBuffer_I1 b pairs cnt now hWF hI1 hpairs.1 hpairs.2,
   rfl,
   fun en hen => absurd hen (List.not_mem_nil en)⟩

/-- Witness for the amended C1 on the empty buffer: I1 holds after a push
and after initialization with one surviving pair. -/
theorem buffer_I1_preserved_witness :
    invariantI1 (EnvelopeBuffer.new.push 0
      { received_at := 5, own_project_key := 1,
        sampling_project_key := none }) ∧
    invariantI1 (initializeBuffer EnvelopeBuffer.new
      [{ own_key := 7, sampling_key := 7 }] none 0) :=
  ⟨(buffer_I1_preserved EnvelopeBuffer.new 0 0
      { received_at := 5, own_project_key := 1, sampling_project_key := none }
      { own_key := 1, sampling_key := 1 } 1 true
      [{ own_key := 7, sampling_key := 7 }] none
      (by decide) (by decide) ⟨by decide, by decide⟩).1.2,
   (buffer_I1_preserved EnvelopeBuffer.new 0 0
      { received_at := 5, own_project_key := 1, sampling_project_key := none }
      { own_key := 1, sampling_key := 1 } 1 true
      [{ own_key := 7, sampling_key := 7 }] none
      (by decide) (by decide) ⟨by decide, by decide⟩).2.2.2.2.1.2⟩
